import Mathlib

/-!
# Verification of the `capgains` lot-selection algorithm

This file is a shallow embedding of `src/main.rs` of the `capgains`
repository.  Monetary values and share counts, `f64` in the source, are
modelled as exact rationals; `f64::trunc` becomes `ratTrunc`.  The
`HashMap<String, f64>` of fund prices becomes an association list, and the
`HashSet` of fund names built by `Account::new` becomes the list of fund
names in order of first occurrence.  The source ranks records with
`sort_unstable_by` on `cap_gains_ratio`, which leaves the relative order of
equal ratios unspecified; the embedding fixes one admissible order by
sorting with a stable insertion sort on the same key.  Errors, a plain
`String` in the source (`AccountError`), are the `Except String` monad with
the exact message texts of the source.
-/

/-- One parsed transaction row: struct `Record` (src/main.rs lines 19-33).
The algorithm reads `date`, `fund`, `num_shares` and `share_price`;
`transaction_type` and `amount` are carried but never used by it. -/
structure Record where
  date : ℤ
  fund : String
  transaction_type : String
  num_shares : ℚ
  share_price : ℚ
  amount : ℚ
deriving DecidableEq

/-- One candidate sale: struct `SellRecord` (src/main.rs lines 35-45). -/
structure SellRecord where
  date_purchased : ℤ
  fund : String
  num_shares : ℚ
  share_price_purchased : ℚ
  share_price : ℚ
  amount : ℚ
  cap_gains : ℚ
  cap_gains_ratio : ℚ
deriving DecidableEq

/-- Price lookup in the fund-price table (`fund_prices.get`, a `HashMap`
in the source, modelled as an association list). -/
def priceOf (fund_prices : List (String × ℚ)) (fund : String) : Option ℚ :=
  fund_prices.lookup fund

/-- The distinct fund names of an account, in order of first occurrence:
the `funds` `HashSet` built by `Account::new` (src/main.rs lines 93-102). -/
def distinctFunds (records : List Record) : List String :=
  records.foldl (fun acc rec => if rec.fund ∈ acc then acc else acc ++ [rec.fund]) []

/-- The up-front scan of `Account::make_sell_records` (src/main.rs lines
108-113): the first fund of the account that has no price, if any. -/
def firstMissingFund (funds : List String) (fund_prices : List (String × ℚ)) : Option String :=
  funds.find? fun fund => (priceOf fund_prices fund).isNone

/-- The per-record body of `Account::make_sell_records` (src/main.rs lines
116-136).  The source unwraps the price lookup, which the up-front scan has
already guaranteed to succeed; the embedding uses `getD 0` for that
unreachable `unwrap`. -/
def mkSellRecord (fund_prices : List (String × ℚ)) (record : Record) : SellRecord :=
  let share_price := (priceOf fund_prices record.fund).getD 0
  let amount := share_price * record.num_shares
  let cap_gains := (share_price - record.share_price) * record.num_shares
  { date_purchased := record.date
    fund := record.fund
    num_shares := record.num_shares
    share_price_purchased := record.share_price
    share_price := share_price
    amount := amount
    cap_gains := cap_gains
    cap_gains_ratio := cap_gains / amount }

/-- `Account::make_sell_records` (src/main.rs lines 104-139). -/
def makeSellRecords (records : List Record) (fund_prices : List (String × ℚ)) :
    Except String (List SellRecord) :=
  match firstMissingFund (distinctFunds records) fund_prices with
  | some fund => Except.error ("Missing price for fund: " ++ fund)
  | none => Except.ok (records.map (mkSellRecord fund_prices))

/-- Rust's `f64::trunc`: rounding toward zero. -/
def ratTrunc (q : ℚ) : ℤ :=
  if 0 ≤ q then ⌊q⌋ else ⌈q⌉

/-- The record built at the split site of `minimum_cap_gains` (src/main.rs
lines 186-193): `n` shares of `srec` with recomputed sale amount and capital
gain, all other fields copied by the `..srec` update. -/
def splitRecord (srec : SellRecord) (n : ℚ) : SellRecord :=
  { srec with
    num_shares := n
    amount := srec.share_price * n
    cap_gains := (srec.share_price - srec.share_price_purchased) * n }

/-- The body of the overshoot branch of `minimum_cap_gains` (src/main.rs
lines 172-196).  `amount` and `cap_gains` are the running totals after
adding `srec`; the source recovers the pre-record values `a` and `c` by
subtraction. -/
def breakEntry (sell_target tax_rate amount cap_gains : ℚ) (srec : SellRecord) : SellRecord :=
  let x := (srec.amount - srec.cap_gains * tax_rate) / srec.num_shares
  let a := amount - srec.amount
  let c := cap_gains - srec.cap_gains
  let n : ℚ := (ratTrunc ((sell_target - (a - c * tax_rate)) / x) : ℤ) + 1
  if n < (ratTrunc srec.num_shares : ℤ) then splitRecord srec n else srec

/-- The accumulation loop of `minimum_cap_gains` (src/main.rs lines
160-201), walking the ranked records: returns the selection together with
the final running `amount` and `cap_gains`. -/
def sellLoop (sell_target tax_rate : ℚ) :
    List SellRecord → ℚ → ℚ → List SellRecord × ℚ × ℚ
  | [], amount, cap_gains => ([], amount, cap_gains)
  | srec :: rest, amount, cap_gains =>
    let amount' := amount + srec.amount
    let cap_gains' := cap_gains + srec.cap_gains
    if sell_target < amount' - cap_gains' * tax_rate then
      ([breakEntry sell_target tax_rate amount' cap_gains' srec], amount', cap_gains')
    else
      let res := sellLoop sell_target tax_rate rest amount' cap_gains'
      (srec :: res.1, res.2.1, res.2.2)

/-- The ranking key: ascending `cap_gains_ratio`, the comparator of
src/main.rs line 153. -/
def ratioLE (a b : SellRecord) : Prop :=
  a.cap_gains_ratio ≤ b.cap_gains_ratio

instance : DecidableRel ratioLE :=
  fun a b => inferInstanceAs (Decidable (a.cap_gains_ratio ≤ b.cap_gains_ratio))

instance : IsTotal SellRecord ratioLE :=
  ⟨fun a b => le_total a.cap_gains_ratio b.cap_gains_ratio⟩

instance : IsTrans SellRecord ratioLE :=
  ⟨fun _ _ _ hab hbc => le_trans hab hbc⟩

/-- The ranking of src/main.rs lines 149-158: sorting the sell records by
ascending `cap_gains_ratio` (the index/`swap_remove` dance of the source
visits the records exactly in that order). -/
def rankedRecords (srecs : List SellRecord) : List SellRecord :=
  List.insertionSort ratioLE srecs

/-- `Account::minimum_cap_gains` (src/main.rs lines 141-208). -/
def minimumCapGains (records : List Record) (fund_prices : List (String × ℚ))
    (sell_target tax_rate : ℚ) : Except String (List SellRecord) :=
  match makeSellRecords records fund_prices with
  | Except.error e => Except.error e
  | Except.ok sell_records =>
    let res := sellLoop sell_target tax_rate (rankedRecords sell_records) 0 0
    if res.2.1 < sell_target then Except.error "Insufficient funds."
    else Except.ok res.1

/-- Net-of-tax proceeds of one sell record. -/
def netValue (tax_rate : ℚ) (srec : SellRecord) : ℚ :=
  srec.amount - srec.cap_gains * tax_rate

/-- Net-of-tax proceeds of a list of sell records. -/
def netTotal (tax_rate : ℚ) (l : List SellRecord) : ℚ :=
  (l.map (netValue tax_rate)).sum

/-- Gross sale amount of a list of sell records. -/
def amountTotal (l : List SellRecord) : ℚ :=
  (l.map SellRecord.amount).sum

/-- Total capital gains of a list of sell records. -/
def capGainsTotal (l : List SellRecord) : ℚ :=
  (l.map SellRecord.cap_gains).sum

/-- A sell record whose derived figures agree with its share count and
prices, as `make_sell_records` constructs them. -/
def wellFormed (s : SellRecord) : Prop :=
  0 < s.num_shares ∧
    s.amount = s.share_price * s.num_shares ∧
    s.cap_gains = (s.share_price - s.share_price_purchased) * s.num_shares

/-- A sell record with a positive current price and a cost basis between
zero and that price: selling it realizes a nonnegative capital gain. -/
def noLoss (s : SellRecord) : Prop :=
  0 < s.share_price ∧ 0 ≤ s.share_price_purchased ∧
    s.share_price_purchased ≤ s.share_price

/-! ## Basic bookkeeping lemmas -/

theorem netTotal_nil (tax_rate : ℚ) : netTotal tax_rate [] = 0 := rfl

theorem netTotal_cons (tax_rate : ℚ) (s : SellRecord) (l : List SellRecord) :
    netTotal tax_rate (s :: l) = netValue tax_rate s + netTotal tax_rate l := by
  simp [netTotal]

theorem amountTotal_nil : amountTotal [] = 0 := rfl

theorem amountTotal_cons (s : SellRecord) (l : List SellRecord) :
    amountTotal (s :: l) = s.amount + amountTotal l := by
  simp [amountTotal]

theorem capGainsTotal_nil : capGainsTotal [] = 0 := rfl

theorem capGainsTotal_cons (s : SellRecord) (l : List SellRecord) :
    capGainsTotal (s :: l) = s.cap_gains + capGainsTotal l := by
  simp [capGainsTotal]

theorem netTotal_eq (tax_rate : ℚ) (l : List SellRecord) :
    netTotal tax_rate l = amountTotal l - capGainsTotal l * tax_rate := by
  induction l with
  | nil => simp [netTotal_nil, amountTotal_nil, capGainsTotal_nil]
  | cons s l ih =>
    rw [netTotal_cons, amountTotal_cons, capGainsTotal_cons, ih, netValue]
    ring

theorem netTotal_nonneg (tax_rate : ℚ) (l : List SellRecord)
    (h : ∀ s ∈ l, 0 ≤ netValue tax_rate s) : 0 ≤ netTotal tax_rate l := by
  induction l with
  | nil => simp [netTotal_nil]
  | cons s l ih =>
    rw [netTotal_cons]
    have h1 := h s (List.mem_cons_self s l)
    have h2 := ih fun x hx => h x (List.mem_cons_of_mem s hx)
    linarith

theorem amountTotal_nonneg (l : List SellRecord)
    (h : ∀ s ∈ l, 0 ≤ s.amount) : 0 ≤ amountTotal l := by
  induction l with
  | nil => simp [amountTotal_nil]
  | cons s l ih =>
    rw [amountTotal_cons]
    have h1 := h s (List.mem_cons_self s l)
    have h2 := ih fun x hx => h x (List.mem_cons_of_mem s hx)
    linarith

/-! ## The distinct-funds scan -/

theorem mem_foldl_funds (l : List Record) :
    ∀ (acc : List String) (f : String),
      (f ∈ l.foldl (fun acc rec => if rec.fund ∈ acc then acc else acc ++ [rec.fund]) acc) ↔
        (f ∈ acc ∨ ∃ rec ∈ l, rec.fund = f) := by
  induction l with
  | nil => simp
  | cons r l ih =>
    intro acc f
    rw [List.foldl_cons, ih]
    by_cases h : r.fund ∈ acc
    · rw [if_pos h]
      constructor
      · rintro (hf | ⟨rec, hrec, hfund⟩)
        · exact Or.inl hf
        · exact Or.inr ⟨rec, List.mem_cons_of_mem r hrec, hfund⟩
      · rintro (hf | ⟨rec, hrec, hfund⟩)
        · exact Or.inl hf
        · rcases List.mem_cons.mp hrec with rfl | hmem
          · exact Or.inl (hfund ▸ h)
          · exact Or.inr ⟨rec, hmem, hfund⟩
    · rw [if_neg h]
      simp only [List.mem_append, List.mem_singleton]
      constructor
      · rintro ((hf | hf) | ⟨rec, hrec, hfund⟩)
        · exact Or.inl hf
        · exact Or.inr ⟨r, List.mem_cons_self r l, hf.symm⟩
        · exact Or.inr ⟨rec, List.mem_cons_of_mem r hrec, hfund⟩
      · rintro (hf | ⟨rec, hrec, hfund⟩)
        · exact Or.inl (Or.inl hf)
        · rcases List.mem_cons.mp hrec with heq | hmem
          · exact Or.inl (Or.inr (heq ▸ hfund).symm)
          · exact Or.inr ⟨rec, hmem, hfund⟩

theorem mem_distinctFunds (records : List Record) (f : String) :
    f ∈ distinctFunds records ↔ ∃ rec ∈ records, rec.fund = f := by
  rw [distinctFunds, mem_foldl_funds]
  simp

/-! ## `make_sell_records` -/

theorem makeSellRecords_ok (records : List Record) (fund_prices : List (String × ℚ))
    (h : ∀ rec ∈ records, (priceOf fund_prices rec.fund).isSome) :
    makeSellRecords records fund_prices =
      Except.ok (records.map (mkSellRecord fund_prices)) := by
  have hnone : firstMissingFund (distinctFunds records) fund_prices = none := by
    rw [firstMissingFund, List.find?_eq_none]
    intro f hf
    obtain ⟨rec, hrec, hfund⟩ := (mem_distinctFunds records f).mp hf
    have hs := h rec hrec
    rw [hfund] at hs
    rw [Option.isNone_iff_eq_none]
    intro hn
    rw [hn] at hs
    simp at hs
  simp only [makeSellRecords, hnone]

/-! ## Ranking facts -/

theorem mem_rankedRecords (srecs : List SellRecord) (s : SellRecord) :
    s ∈ rankedRecords srecs ↔ s ∈ srecs :=
  List.mem_insertionSort ratioLE

theorem rankedRecords_sorted (srecs : List SellRecord) :
    List.Sorted ratioLE (rankedRecords srecs) :=
  List.sorted_insertionSort ratioLE srecs

theorem netTotal_rankedRecords (tax_rate : ℚ) (srecs : List SellRecord) :
    netTotal tax_rate (rankedRecords srecs) = netTotal tax_rate srecs :=
  ((List.perm_insertionSort ratioLE srecs).map (netValue tax_rate)).sum_eq

theorem amountTotal_rankedRecords (srecs : List SellRecord) :
    amountTotal (rankedRecords srecs) = amountTotal srecs :=
  ((List.perm_insertionSort ratioLE srecs).map SellRecord.amount).sum_eq

/-! ## Facts about constructed sell records -/

theorem mkSellRecord_wellFormed (fund_prices : List (String × ℚ)) (record : Record)
    (h : 0 < record.num_shares) : wellFormed (mkSellRecord fund_prices record) := by
  refine ⟨h, rfl, rfl⟩

theorem mkSellRecord_noLoss (fund_prices : List (String × ℚ)) (record : Record) (p : ℚ)
    (hp : priceOf fund_prices record.fund = some p) (hp0 : 0 < p)
    (hb0 : 0 ≤ record.share_price) (hbp : record.share_price ≤ p) :
    noLoss (mkSellRecord fund_prices record) := by
  refine ⟨?_, hb0, ?_⟩ <;> simp [mkSellRecord, hp, hp0, hbp]

theorem wellFormed_cap_gains_nonneg (s : SellRecord)
    (hw : wellFormed s) (hn : noLoss s) : 0 ≤ s.cap_gains := by
  obtain ⟨hsh, _, hc⟩ := hw
  obtain ⟨_, _, hbp⟩ := hn
  rw [hc]
  have : 0 ≤ s.share_price - s.share_price_purchased := by linarith
  positivity

theorem wellFormed_netValue_pos (tax_rate : ℚ) (s : SellRecord)
    (hw : wellFormed s) (hn : noLoss s) (hr0 : 0 ≤ tax_rate) (hr1 : tax_rate < 1) :
    0 < netValue tax_rate s := by
  obtain ⟨hsh, ha, hc⟩ := hw
  obtain ⟨hp0, hb0, hbp⟩ := hn
  rw [netValue, ha, hc]
  have key : 0 < s.share_price - (s.share_price - s.share_price_purchased) * tax_rate := by
    nlinarith
  calc 0 < (s.share_price - (s.share_price - s.share_price_purchased) * tax_rate) *
            s.num_shares := by positivity
    _ = s.share_price * s.num_shares -
          (s.share_price - s.share_price_purchased) * s.num_shares * tax_rate := by ring

theorem wellFormed_netValue_le_amount (tax_rate : ℚ) (s : SellRecord)
    (hw : wellFormed s) (hn : noLoss s) (hr0 : 0 ≤ tax_rate) :
    netValue tax_rate s ≤ s.amount := by
  have hc := wellFormed_cap_gains_nonneg s hw hn
  rw [netValue]
  nlinarith

/-! ## Inverting a successful run -/

theorem minimumCapGains_ok_inv (records : List Record) (fund_prices : List (String × ℚ))
    (sell_target tax_rate : ℚ) (l : List SellRecord)
    (h : minimumCapGains records fund_prices sell_target tax_rate = Except.ok l) :
    ∃ srecs, makeSellRecords records fund_prices = Except.ok srecs ∧
      l = (sellLoop sell_target tax_rate (rankedRecords srecs) 0 0).1 ∧
      sell_target ≤ (sellLoop sell_target tax_rate (rankedRecords srecs) 0 0).2.1 := by
  rw [minimumCapGains] at h
  cases hm : makeSellRecords records fund_prices with
  | error e => rw [hm] at h; cases h
  | ok srecs =>
    rw [hm] at h
    dsimp only at h
    by_cases hlt : (sellLoop sell_target tax_rate (rankedRecords srecs) 0 0).2.1 < sell_target
    · rw [if_pos hlt] at h; cases h
    · rw [if_neg hlt] at h
      exact ⟨srecs, rfl, (Except.ok.injEq _ _ ▸ h).symm, not_lt.mp hlt⟩

/-! ## Unfolding equations for the loop -/

theorem sellLoop_nil (t r a c : ℚ) : sellLoop t r [] a c = ([], a, c) := rfl

theorem sellLoop_cons (t r : ℚ) (s : SellRecord) (rest : List SellRecord) (a c : ℚ) :
    sellLoop t r (s :: rest) a c =
      (if t < (a + s.amount) - (c + s.cap_gains) * r then
        ([breakEntry t r (a + s.amount) (c + s.cap_gains) s], a + s.amount, c + s.cap_gains)
      else
        (s :: (sellLoop t r rest (a + s.amount) (c + s.cap_gains)).1,
          (sellLoop t r rest (a + s.amount) (c + s.cap_gains)).2.1,
          (sellLoop t r rest (a + s.amount) (c + s.cap_gains)).2.2)) := rfl

theorem breakEntry_def (t r amt cg : ℚ) (s : SellRecord) :
    breakEntry t r amt cg s =
      (if (ratTrunc ((t - ((amt - s.amount) - (cg - s.cap_gains) * r)) /
              ((s.amount - s.cap_gains * r) / s.num_shares)) : ℚ) + 1 <
            (ratTrunc s.num_shares : ℚ) then
        splitRecord s ((ratTrunc ((t - ((amt - s.amount) - (cg - s.cap_gains) * r)) /
              ((s.amount - s.cap_gains * r) / s.num_shares)) : ℚ) + 1)
      else s) := rfl

/-! ## `ratTrunc` on nonnegative arguments -/

theorem ratTrunc_of_nonneg (q : ℚ) (h : 0 ≤ q) : ratTrunc q = ⌊q⌋ := by
  rw [ratTrunc, if_pos h]

theorem ratTrunc_cast_nonneg (q : ℚ) (h : 0 ≤ q) : (0 : ℚ) ≤ (ratTrunc q : ℤ) := by
  rw [ratTrunc_of_nonneg q h]
  exact_mod_cast Int.floor_nonneg.mpr h

theorem lt_ratTrunc_add_one (q : ℚ) (h : 0 ≤ q) : q < ((ratTrunc q : ℤ) : ℚ) + 1 := by
  rw [ratTrunc_of_nonneg q h]
  exact_mod_cast Int.lt_floor_add_one q

theorem ratTrunc_le_self (q : ℚ) (h : 0 ≤ q) : ((ratTrunc q : ℤ) : ℚ) ≤ q := by
  rw [ratTrunc_of_nonneg q h]
  exact_mod_cast Int.floor_le q

/-! ## The overshoot branch -/

theorem splitRecord_netValue (tax_rate : ℚ) (s : SellRecord) (n : ℚ) (hw : wellFormed s) :
    netValue tax_rate (splitRecord s n) =
      n * ((s.amount - s.cap_gains * tax_rate) / s.num_shares) := by
  obtain ⟨hsh, ha, hc⟩ := hw
  rw [netValue]
  simp only [splitRecord]
  rw [ha, hc]
  field_simp
  ring

/-- At the lot where the running net-of-tax total first exceeds the
target, `breakEntry` either keeps the lot whole or replaces it with a
split of `n` shares, `0 < n < num_shares`, whose net proceeds close the
remaining gap to the target. -/
theorem breakEntry_cases (t r amt cg : ℚ) (s : SellRecord)
    (hsh : 0 < s.num_shares)
    (hpre : (amt - s.amount) - (cg - s.cap_gains) * r ≤ t)
    (hb : t < amt - cg * r) :
    breakEntry t r amt cg s = s ∨
      ∃ n : ℚ, breakEntry t r amt cg s = splitRecord s n ∧
        0 < n ∧ n < s.num_shares ∧
        t - ((amt - s.amount) - (cg - s.cap_gains) * r) <
          n * ((s.amount - s.cap_gains * r) / s.num_shares) := by
  have hd : (0:ℚ) ≤ t - ((amt - s.amount) - (cg - s.cap_gains) * r) := by linarith
  have hnu : (0:ℚ) < s.amount - s.cap_gains * r := by linarith
  have hx : (0:ℚ) < (s.amount - s.cap_gains * r) / s.num_shares := div_pos hnu hsh
  have hq : (0:ℚ) ≤ (t - ((amt - s.amount) - (cg - s.cap_gains) * r)) /
      ((s.amount - s.cap_gains * r) / s.num_shares) := div_nonneg hd hx.le
  rw [breakEntry_def]
  by_cases hsplit : (ratTrunc ((t - ((amt - s.amount) - (cg - s.cap_gains) * r)) /
      ((s.amount - s.cap_gains * r) / s.num_shares)) : ℚ) + 1 <
        (ratTrunc s.num_shares : ℚ)
  · rw [if_pos hsplit]
    refine Or.inr ⟨_, rfl, ?_, ?_, ?_⟩
    · have := ratTrunc_cast_nonneg _ hq
      linarith
    · have := ratTrunc_le_self s.num_shares hsh.le
      linarith
    · have hlt := lt_ratTrunc_add_one _ hq
      have := (div_lt_iff₀ hx).mp hlt
      linarith
  · rw [if_neg hsplit]
    exact Or.inl rfl

/-- Rewriting the overshoot branch with `⌊⌋` in place of `trunc`: at the
overshoot lot both roundings agree, because the remaining gap and the share
count are nonnegative there. -/
theorem breakEntry_floor (t r amt cg : ℚ) (s : SellRecord)
    (hsh : 0 < s.num_shares)
    (hpre : (amt - s.amount) - (cg - s.cap_gains) * r ≤ t)
    (hb : t < amt - cg * r) :
    breakEntry t r amt cg s =
      (if (⌊(t - ((amt - s.amount) - (cg - s.cap_gains) * r)) /
              ((s.amount - s.cap_gains * r) / s.num_shares)⌋ : ℚ) + 1 <
            (⌊s.num_shares⌋ : ℚ) then
        splitRecord s ((⌊(t - ((amt - s.amount) - (cg - s.cap_gains) * r)) /
              ((s.amount - s.cap_gains * r) / s.num_shares)⌋ : ℚ) + 1)
      else s) := by
  have hd : (0:ℚ) ≤ t - ((amt - s.amount) - (cg - s.cap_gains) * r) := by linarith
  have hnu : (0:ℚ) < s.amount - s.cap_gains * r := by linarith
  have hx : (0:ℚ) < (s.amount - s.cap_gains * r) / s.num_shares := div_pos hnu hsh
  have hq : (0:ℚ) ≤ (t - ((amt - s.amount) - (cg - s.cap_gains) * r)) /
      ((s.amount - s.cap_gains * r) / s.num_shares) := div_nonneg hd hx.le
  rw [breakEntry_def, ratTrunc_of_nonneg _ hq, ratTrunc_of_nonneg _ hsh.le]

/-! ## Loop invariants -/

/-- The final running `amount` of the loop never exceeds the starting
accumulator plus the gross amount of the records walked. -/
theorem sellLoop_amount_le (t r : ℚ) :
    ∀ (l : List SellRecord) (a c : ℚ), (∀ s ∈ l, 0 ≤ s.amount) →
      (sellLoop t r l a c).2.1 ≤ a + amountTotal l := by
  intro l
  induction l with
  | nil => intro a c _; rw [sellLoop_nil, amountTotal_nil]; simp
  | cons s rest ih =>
    intro a c h
    have hrest : ∀ u ∈ rest, 0 ≤ u.amount := fun u hu => h u (List.mem_cons_of_mem s hu)
    have hrest0 : 0 ≤ amountTotal rest := amountTotal_nonneg rest hrest
    rw [sellLoop_cons, amountTotal_cons]
    by_cases hb : t < (a + s.amount) - (c + s.cap_gains) * r
    · rw [if_pos hb]
      dsimp only
      linarith
    · rw [if_neg hb]
      dsimp only
      have := ih (a + s.amount) (c + s.cap_gains) hrest
      linarith

/-- Core correctness of the accumulation walk: if the records still to be
walked can close the gap to the target net of tax, the walk returns a
selection that closes it, and a final running `amount` that passes the
closing `amount < sell_target` check. -/
theorem sellLoop_reaches (t r : ℚ) (hr0 : 0 ≤ r) (hr1 : r < 1) :
    ∀ (l : List SellRecord) (a c : ℚ),
      (∀ s ∈ l, wellFormed s ∧ noLoss s) → 0 ≤ c → a - c * r ≤ t →
      t ≤ (a - c * r) + netTotal r l →
      t ≤ (a - c * r) + netTotal r (sellLoop t r l a c).1 ∧
        t ≤ (sellLoop t r l a c).2.1 := by
  intro l
  induction l with
  | nil =>
    intro a c _ hc hpre havail
    rw [sellLoop_nil]
    rw [netTotal_nil] at havail ⊢
    have hcr : 0 ≤ c * r := mul_nonneg hc hr0
    exact ⟨havail, by linarith⟩
  | cons s rest ih =>
    intro a c h hc hpre havail
    have hs := h s (List.mem_cons_self s rest)
    have hrest : ∀ u ∈ rest, wellFormed u ∧ noLoss u :=
      fun u hu => h u (List.mem_cons_of_mem s hu)
    have hcap : 0 ≤ s.cap_gains := wellFormed_cap_gains_nonneg s hs.1 hs.2
    have hnet : 0 < netValue r s := wellFormed_netValue_pos r s hs.1 hs.2 hr0 hr1
    have hnv : netValue r s = s.amount - s.cap_gains * r := rfl
    rw [sellLoop_cons]
    by_cases hb : t < (a + s.amount) - (c + s.cap_gains) * r
    · rw [if_pos hb]
      dsimp only
      have hcr : 0 ≤ (c + s.cap_gains) * r := mul_nonneg (by linarith) hr0
      refine ⟨?_, by linarith⟩
      rcases breakEntry_cases t r (a + s.amount) (c + s.cap_gains) s hs.1.1
          (by linarith) hb with hwhole | ⟨n, hsplit, _, _, hgap⟩
      · rw [hwhole, netTotal_cons, netTotal_nil, hnv]
        linarith
      · rw [hsplit, netTotal_cons, netTotal_nil,
          splitRecord_netValue r s n hs.1]
        have : a + s.amount - s.amount = a := by ring
        rw [this] at hgap
        have : c + s.cap_gains - s.cap_gains = c := by ring
        rw [this] at hgap
        linarith
    · rw [if_neg hb]
      dsimp only
      rw [netTotal_cons] at havail
      have hb' : (a + s.amount) - (c + s.cap_gains) * r ≤ t := not_lt.mp hb
      have ihr := ih (a + s.amount) (c + s.cap_gains) hrest (by linarith) hb'
        (by linarith [hnv])
      rw [netTotal_cons]
      constructor
      · have := ihr.1
        linarith [hnv]
      · exact ihr.2

/-- Every record the loop emits originates in a walked record: the listed
frame fields are copied, the share count is positive and bounded by the
original, and amount and capital gain are price times shares. -/
theorem sellLoop_mem_spec (t r : ℚ) :
    ∀ (l : List SellRecord) (a c : ℚ), (∀ s ∈ l, wellFormed s) → a - c * r ≤ t →
      ∀ e ∈ (sellLoop t r l a c).1,
        ∃ s ∈ l, e.date_purchased = s.date_purchased ∧ e.fund = s.fund ∧
          e.share_price_purchased = s.share_price_purchased ∧
          e.share_price = s.share_price ∧
          0 < e.num_shares ∧ e.num_shares ≤ s.num_shares ∧
          e.amount = e.share_price * e.num_shares ∧
          e.cap_gains = (e.share_price - e.share_price_purchased) * e.num_shares := by
  intro l
  induction l with
  | nil => intro a c _ _ e he; rw [sellLoop_nil] at he; cases he
  | cons s rest ih =>
    intro a c h hpre e he
    have hs := h s (List.mem_cons_self s rest)
    have hrest : ∀ u ∈ rest, wellFormed u := fun u hu => h u (List.mem_cons_of_mem s hu)
    rw [sellLoop_cons] at he
    by_cases hb : t < (a + s.amount) - (c + s.cap_gains) * r
    · rw [if_pos hb] at he
      dsimp only at he
      rcases List.mem_singleton.mp he with rfl
      rcases breakEntry_cases t r (a + s.amount) (c + s.cap_gains) s hs.1
          (by linarith) hb with hwhole | ⟨n, hsplit, hn0, hnlt, _⟩
      · rw [hwhole]
        exact ⟨s, List.mem_cons_self s rest, rfl, rfl, rfl, rfl, hs.1, le_refl _,
          hs.2.1, hs.2.2⟩
      · rw [hsplit]
        refine ⟨s, List.mem_cons_self s rest, rfl, rfl, rfl, rfl, hn0, hnlt.le, ?_, ?_⟩ <;>
          simp [splitRecord]
    · rw [if_neg hb] at he
      dsimp only at he
      rcases List.mem_cons.mp he with rfl | hmem
      · exact ⟨e, List.mem_cons_self e rest, rfl, rfl, rfl, rfl, hs.1, le_refl _,
          hs.2.1, hs.2.2⟩
      · obtain ⟨u, hu, hprops⟩ :=
          ih (a + s.amount) (c + s.cap_gains) hrest (not_lt.mp hb) e hmem
        exact ⟨u, List.mem_cons_of_mem s hu, hprops⟩

/-- All emitted records except possibly the last are an initial segment of
the walked list. -/
theorem sellLoop_dropLast_sublist (t r : ℚ) :
    ∀ (l : List SellRecord) (a c : ℚ),
      (sellLoop t r l a c).1.dropLast.Sublist l := by
  intro l
  induction l with
  | nil => intro a c; rw [sellLoop_nil]; simp
  | cons s rest ih =>
    intro a c
    rw [sellLoop_cons]
    by_cases hb : t < (a + s.amount) - (c + s.cap_gains) * r
    · rw [if_pos hb]
      dsimp only
      simp
    · rw [if_neg hb]
      dsimp only
      cases hres : (sellLoop t r rest (a + s.amount) (c + s.cap_gains)).1 with
      | nil => simp
      | cons y ys =>
        rw [List.dropLast_cons₂]
        have := ih (a + s.amount) (c + s.cap_gains)
        rw [hres] at this
        exact List.Sublist.cons₂ s this

/-- Exact shape of the walk when the running net-of-tax total first exceeds
the target at record `L`: the records before `L` are kept whole in ranking
order, `L` is resolved by `breakEntry` with the running totals including
`L`, and nothing after `L` is walked. -/
theorem sellLoop_break_run (t r : ℚ) :
    ∀ (front : List SellRecord) (L : SellRecord) (rest : List SellRecord) (a c : ℚ),
      (∀ s ∈ front, 0 < netValue r s) →
      (a - c * r) + netTotal r front ≤ t →
      t < (a - c * r) + netTotal r front + netValue r L →
      sellLoop t r (front ++ L :: rest) a c =
        (front ++ [breakEntry t r (a + amountTotal front + L.amount)
            (c + capGainsTotal front + L.cap_gains) L],
          a + amountTotal front + L.amount,
          c + capGainsTotal front + L.cap_gains) := by
  intro front
  induction front with
  | nil =>
    intro L rest a c _ hpre hb
    rw [netTotal_nil] at hb
    have hnvL : netValue r L = L.amount - L.cap_gains * r := rfl
    rw [List.nil_append, sellLoop_cons, if_pos (by linarith [hnvL])]
    rw [amountTotal_nil, capGainsTotal_nil]
    norm_num
  | cons s front ih =>
    intro L rest a c hpos hpre hb
    have hshead := hpos s (List.mem_cons_self s front)
    have hfront : ∀ u ∈ front, 0 < netValue r u :=
      fun u hu => hpos u (List.mem_cons_of_mem s hu)
    have hnt : 0 ≤ netTotal r front :=
      netTotal_nonneg r front fun u hu => (hfront u hu).le
    have hnvs : netValue r s = s.amount - s.cap_gains * r := rfl
    rw [netTotal_cons] at hpre hb
    have hcond : ¬ t < (a + s.amount) - (c + s.cap_gains) * r := by
      rw [not_lt]
      have : (a + s.amount) - (c + s.cap_gains) * r = (a - c * r) + netValue r s := by
        rw [hnvs]; ring
      linarith [this]
    rw [List.cons_append, sellLoop_cons, if_neg hcond]
    have hpre' : ((a + s.amount) - (c + s.cap_gains) * r) + netTotal r front ≤ t := by
      have : (a + s.amount) - (c + s.cap_gains) * r = (a - c * r) + netValue r s := by
        rw [hnvs]; ring
      linarith [this]
    have hb' : t < ((a + s.amount) - (c + s.cap_gains) * r) + netTotal r front +
        netValue r L := by
      have : (a + s.amount) - (c + s.cap_gains) * r = (a - c * r) + netValue r s := by
        rw [hnvs]; ring
      linarith [this]
    rw [ih L rest (a + s.amount) (c + s.cap_gains) hfront hpre' hb']
    have h1 : a + s.amount + amountTotal front = a + amountTotal (s :: front) := by
      rw [amountTotal_cons]; ring
    have h2 : c + s.cap_gains + capGainsTotal front = c + capGainsTotal (s :: front) := by
      rw [capGainsTotal_cons]; ring
    rw [h1, h2]
    rfl

/-! ## Sums comparison and record-level hypotheses -/

theorem netTotal_le_amountTotal (tax_rate : ℚ) (l : List SellRecord)
    (h : ∀ s ∈ l, netValue tax_rate s ≤ s.amount) :
    netTotal tax_rate l ≤ amountTotal l := by
  induction l with
  | nil => rw [netTotal_nil, amountTotal_nil]
  | cons s rest ih =>
    rw [netTotal_cons, amountTotal_cons]
    have h1 := h s (List.mem_cons_self s rest)
    have h2 := ih fun u hu => h u (List.mem_cons_of_mem s hu)
    linarith

theorem ranked_records_good (records : List Record) (fund_prices : List (String × ℚ))
    (h : ∀ rec ∈ records, 0 < rec.num_shares ∧ ∃ p, priceOf fund_prices rec.fund = some p ∧
      0 < p ∧ 0 ≤ rec.share_price ∧ rec.share_price ≤ p) :
    ∀ s ∈ rankedRecords (records.map (mkSellRecord fund_prices)),
      wellFormed s ∧ noLoss s := by
  intro s hs
  rw [mem_rankedRecords] at hs
  obtain ⟨rec, hrec, rfl⟩ := List.mem_map.mp hs
  obtain ⟨hsh, p, hp, hp0, hb0, hbp⟩ := h rec hrec
  exact ⟨mkSellRecord_wellFormed fund_prices rec hsh,
    mkSellRecord_noLoss fund_prices rec p hp hp0 hb0 hbp⟩

theorem priced_of_hyp (records : List Record) (fund_prices : List (String × ℚ))
    (h : ∀ rec ∈ records, ∃ p, priceOf fund_prices rec.fund = some p) :
    ∀ rec ∈ records, (priceOf fund_prices rec.fund).isSome := by
  intro rec hrec
  obtain ⟨p, hp⟩ := h rec hrec
  rw [hp]
  rfl

/-! ## Claim theorems -/

/-- Claim C1, amended: for inputs with positive share counts, positive
prices for all referenced holdings, a cost basis between zero and the
current price for every lot (no loss lots, matching the source's own
unhandled-negative-gains caveat), a positive target and a tax rate in
`[0, 1)`, if the net-of-tax value of the whole lot set reaches the target
then `minimum_cap_gains` returns `Ok` with a selection whose net-of-tax
total (gross amount minus tax rate times capital gains) reaches the
target. -/
theorem minimum_cap_gains_reaches_target
    (records : List Record) (fund_prices : List (String × ℚ)) (sell_target tax_rate : ℚ)
    (h : ∀ rec ∈ records, 0 < rec.num_shares ∧ ∃ p, priceOf fund_prices rec.fund = some p ∧
      0 < p ∧ 0 ≤ rec.share_price ∧ rec.share_price ≤ p)
    (ht : 0 < sell_target) (hr0 : 0 ≤ tax_rate) (hr1 : tax_rate < 1)
    (havail : sell_target ≤ netTotal tax_rate (records.map (mkSellRecord fund_prices))) :
    ∃ l, minimumCapGains records fund_prices sell_target tax_rate = Except.ok l ∧
      sell_target ≤ amountTotal l - tax_rate * capGainsTotal l := by
  have hok : makeSellRecords records fund_prices =
      Except.ok (records.map (mkSellRecord fund_prices)) :=
    makeSellRecords_ok records fund_prices
      (priced_of_hyp records fund_prices fun rec hrec => ⟨_, (h rec hrec).2.choose_spec.1⟩)
  have hgood := ranked_records_good records fund_prices h
  have hloop := sellLoop_reaches sell_target tax_rate hr0 hr1
    (rankedRecords (records.map (mkSellRecord fund_prices))) 0 0 hgood le_rfl
    (by simpa using ht.le)
    (by simpa [netTotal_rankedRecords] using havail)
  have hstop : ¬ (sellLoop sell_target tax_rate
      (rankedRecords (records.map (mkSellRecord fund_prices))) 0 0).2.1 < sell_target :=
    not_lt.mpr hloop.2
  refine ⟨(sellLoop sell_target tax_rate
      (rankedRecords (records.map (mkSellRecord fund_prices))) 0 0).1, ?_, ?_⟩
  · simp only [minimumCapGains, hok]
    rw [if_neg hstop]
  · have h1 := hloop.1
    rw [netTotal_eq] at h1
    linarith

/-- Claim C2, amended: for inputs with positive share counts and positive
prices for all referenced holdings, if the gross (pre-tax) sale value of
the entire lot set is below the target — the quantity the source's closing
check actually compares against the target — then `minimum_cap_gains`
fails with the insufficient-funds error and returns no selection. -/
theorem minimum_cap_gains_insufficient
    (records : List Record) (fund_prices : List (String × ℚ)) (sell_target tax_rate : ℚ)
    (h : ∀ rec ∈ records, 0 < rec.num_shares ∧ ∃ p, priceOf fund_prices rec.fund = some p ∧
      0 < p)
    (hlt : amountTotal (records.map (mkSellRecord fund_prices)) < sell_target) :
    minimumCapGains records fund_prices sell_target tax_rate =
      Except.error "Insufficient funds." := by
  have hok : makeSellRecords records fund_prices =
      Except.ok (records.map (mkSellRecord fund_prices)) :=
    makeSellRecords_ok records fund_prices
      (priced_of_hyp records fund_prices fun rec hrec => ⟨_, (h rec hrec).2.choose_spec.1⟩)
  have hamt : ∀ s ∈ rankedRecords (records.map (mkSellRecord fund_prices)), 0 ≤ s.amount := by
    intro s hs
    rw [mem_rankedRecords] at hs
    obtain ⟨rec, hrec, rfl⟩ := List.mem_map.mp hs
    obtain ⟨hsh, p, hp, hp0⟩ := h rec hrec
    have : (mkSellRecord fund_prices rec).amount = p * rec.num_shares := by
      simp [mkSellRecord, hp]
    rw [this]
    exact (mul_pos hp0 hsh).le
  have hbound := sellLoop_amount_le sell_target tax_rate
    (rankedRecords (records.map (mkSellRecord fund_prices))) 0 0 hamt
  rw [amountTotal_rankedRecords] at hbound
  have hfa : (sellLoop sell_target tax_rate
      (rankedRecords (records.map (mkSellRecord fund_prices))) 0 0).2.1 < sell_target := by
    linarith
  simp only [minimumCapGains, hok]
  rw [if_pos hfa]

/-- Claim C4: if any holding referenced by any lot is absent from the
price table, `minimum_cap_gains` fails with the missing-price error naming
an offending holding, whatever the target and tax rate are, and the error
is raised by the up-front scan over the distinct fund set. -/
theorem minimum_cap_gains_missing_price
    (records : List Record) (fund_prices : List (String × ℚ)) (sell_target tax_rate : ℚ)
    (h : ∃ rec ∈ records, priceOf fund_prices rec.fund = none) :
    ∃ fund, minimumCapGains records fund_prices sell_target tax_rate =
        Except.error ("Missing price for fund: " ++ fund) ∧
      priceOf fund_prices fund = none ∧ ∃ rec ∈ records, rec.fund = fund := by
  obtain ⟨rec, hrec, hnone⟩ := h
  have hmem : rec.fund ∈ distinctFunds records :=
    (mem_distinctFunds records rec.fund).mpr ⟨rec, hrec, rfl⟩
  cases hfind : firstMissingFund (distinctFunds records) fund_prices with
  | none =>
    exfalso
    rw [firstMissingFund, List.find?_eq_none] at hfind
    have := hfind rec.fund hmem
    rw [hnone] at this
    simp at this
  | some f =>
    have hfind2 : (distinctFunds records).find?
        (fun fund => (priceOf fund_prices fund).isNone) = some f := hfind
    have hf : (priceOf fund_prices f).isNone = true :=
      @List.find?_some String (fun fund => (priceOf fund_prices fund).isNone) f
        (distinctFunds records) hfind2
    have hfmem : f ∈ distinctFunds records :=
      @List.mem_of_find?_eq_some String (fun fund => (priceOf fund_prices fund).isNone) f
        (distinctFunds records) hfind2
    refine ⟨f, ?_, Option.isNone_iff_eq_none.mp hf, (mem_distinctFunds records f).mp hfmem⟩
    simp only [minimumCapGains, makeSellRecords, hfind]

/-- Claim C8: in a successful run, the capital-gains ratios of all emitted
records except the final (possibly split) one are in non-decreasing
order. -/
theorem minimum_cap_gains_ranked_output
    (records : List Record) (fund_prices : List (String × ℚ)) (sell_target tax_rate : ℚ)
    (l : List SellRecord)
    (hok : minimumCapGains records fund_prices sell_target tax_rate = Except.ok l) :
    List.Sorted (· ≤ ·) (l.dropLast.map SellRecord.cap_gains_ratio) := by
  obtain ⟨srecs, hmk, hl, hfa⟩ :=
    minimumCapGains_ok_inv records fund_prices sell_target tax_rate l hok
  have hsorted : List.Sorted ratioLE (rankedRecords srecs) := rankedRecords_sorted srecs
  have hsub : l.dropLast.Sublist (rankedRecords srecs) := by
    rw [hl]
    exact sellLoop_dropLast_sublist sell_target tax_rate (rankedRecords srecs) 0 0
  have hpw : List.Pairwise ratioLE l.dropLast := List.Pairwise.sublist hsub hsorted
  exact List.Pairwise.map SellRecord.cap_gains_ratio (fun a b hab => hab) hpw

/-- Claim C9: with positive share counts and positive prices for all
referenced holdings, every constructed sell record has a nonzero (indeed
positive) sale amount, and its gain ratio is the genuine quotient
`cap_gains / amount` of a nonzero denominator — the real-valued rendering
of "`gain_ratio` is finite and the ranking comparison never fails". -/
theorem make_sell_records_ratios_defined
    (records : List Record) (fund_prices : List (String × ℚ))
    (h : ∀ rec ∈ records, 0 < rec.num_shares ∧ ∃ p, priceOf fund_prices rec.fund = some p ∧
      0 < p) :
    ∀ s ∈ records.map (mkSellRecord fund_prices),
      0 < s.amount ∧ s.amount ≠ 0 ∧ s.cap_gains_ratio * s.amount = s.cap_gains := by
  intro s hs
  obtain ⟨rec, hrec, rfl⟩ := List.mem_map.mp hs
  obtain ⟨hsh, p, hp, hp0⟩ := h rec hrec
  have hamt : (mkSellRecord fund_prices rec).amount = p * rec.num_shares := by
    simp [mkSellRecord, hp]
  have hpos : 0 < (mkSellRecord fund_prices rec).amount := by
    rw [hamt]
    exact mul_pos hp0 hsh
  refine ⟨hpos, hpos.ne', ?_⟩
  have hratio : (mkSellRecord fund_prices rec).cap_gains_ratio =
      (mkSellRecord fund_prices rec).cap_gains / (mkSellRecord fund_prices rec).amount := rfl
  rw [hratio, div_mul_cancel₀ _ hpos.ne']

/-- Claim C6, amended: with positive share counts, positive prices for all
referenced holdings, and a nonnegative target, every entry of a successful
selection stems from an input lot, sells a positive share count no larger
than that lot's, and carries `amount` and `cap_gains` equal to the current
price times shares and price difference times shares. -/
theorem minimum_cap_gains_entry_invariants
    (records : List Record) (fund_prices : List (String × ℚ)) (sell_target tax_rate : ℚ)
    (l : List SellRecord)
    (h : ∀ rec ∈ records, 0 < rec.num_shares ∧ ∃ p, priceOf fund_prices rec.fund = some p ∧
      0 < p)
    (ht : 0 ≤ sell_target)
    (hrun : minimumCapGains records fund_prices sell_target tax_rate = Except.ok l) :
    ∀ e ∈ l, ∃ rec ∈ records, ∃ p, priceOf fund_prices rec.fund = some p ∧
      e.fund = rec.fund ∧ e.date_purchased = rec.date ∧
      e.share_price_purchased = rec.share_price ∧
      0 < e.num_shares ∧ e.num_shares ≤ rec.num_shares ∧
      e.amount = p * e.num_shares ∧
      e.cap_gains = (p - rec.share_price) * e.num_shares := by
  obtain ⟨srecs, hmk, hl, _⟩ :=
    minimumCapGains_ok_inv records fund_prices sell_target tax_rate l hrun
  have hok2 : makeSellRecords records fund_prices =
      Except.ok (records.map (mkSellRecord fund_prices)) :=
    makeSellRecords_ok records fund_prices
      (priced_of_hyp records fund_prices fun rec hrec => ⟨_, (h rec hrec).2.choose_spec.1⟩)
  rw [hok2] at hmk
  injection hmk with heq
  subst heq
  intro e he
  rw [hl] at he
  have hwf : ∀ s ∈ rankedRecords (records.map (mkSellRecord fund_prices)), wellFormed s := by
    intro s hs
    rw [mem_rankedRecords] at hs
    obtain ⟨rec, hrec, rfl⟩ := List.mem_map.mp hs
    exact mkSellRecord_wellFormed fund_prices rec (h rec hrec).1
  obtain ⟨s, hsmem, hdate, hfund, hppE, hspE, hn0, hnle, hamtE, hcapE⟩ :=
    sellLoop_mem_spec sell_target tax_rate
      (rankedRecords (records.map (mkSellRecord fund_prices))) 0 0 hwf
      (by simpa using ht) e he
  rw [mem_rankedRecords] at hsmem
  obtain ⟨rec, hrec, rfl⟩ := List.mem_map.mp hsmem
  obtain ⟨hsh, p, hp, hp0⟩ := h rec hrec
  have hsp : (mkSellRecord fund_prices rec).share_price = p := by
    simp [mkSellRecord, hp]
  refine ⟨rec, hrec, p, hp, ?_, ?_, ?_, hn0, hnle, ?_, ?_⟩
  · rw [hfund]; rfl
  · rw [hdate]; rfl
  · rw [hppE]; rfl
  · rw [hamtE, hspE, hsp]
  · rw [hcapE, hspE, hsp, hppE]
    rfl

/-- Shape of a run that overshoots at record `L` of the ranking: shared
scenario analysis for the split-rule claims. -/
theorem minimumCapGains_break_shape
    (records : List Record) (fund_prices : List (String × ℚ)) (sell_target tax_rate : ℚ)
    (front : List SellRecord) (L : SellRecord) (rest : List SellRecord)
    (h : ∀ rec ∈ records, 0 < rec.num_shares ∧ ∃ p, priceOf fund_prices rec.fund = some p ∧
      0 < p ∧ 0 ≤ rec.share_price ∧ rec.share_price ≤ p)
    (hr0 : 0 ≤ tax_rate) (hr1 : tax_rate < 1)
    (hrank : rankedRecords (records.map (mkSellRecord fund_prices)) = front ++ L :: rest)
    (hpre : netTotal tax_rate front ≤ sell_target)
    (hb : sell_target < netTotal tax_rate front + netValue tax_rate L) :
    minimumCapGains records fund_prices sell_target tax_rate =
      Except.ok (front ++ [breakEntry sell_target tax_rate
        (0 + amountTotal front + L.amount) (0 + capGainsTotal front + L.cap_gains) L]) ∧
    wellFormed L ∧ noLoss L ∧
    ((0 + amountTotal front + L.amount) - L.amount) -
      ((0 + capGainsTotal front + L.cap_gains) - L.cap_gains) * tax_rate ≤ sell_target ∧
    sell_target < (0 + amountTotal front + L.amount) -
      (0 + capGainsTotal front + L.cap_gains) * tax_rate := by
  have hok : makeSellRecords records fund_prices =
      Except.ok (records.map (mkSellRecord fund_prices)) :=
    makeSellRecords_ok records fund_prices
      (priced_of_hyp records fund_prices fun rec hrec => ⟨_, (h rec hrec).2.choose_spec.1⟩)
  have hgood := ranked_records_good records fund_prices h
  rw [hrank] at hgood
  have hLgood : wellFormed L ∧ noLoss L :=
    hgood L (List.mem_append_right front (List.mem_cons_self L rest))
  have hfrontgood : ∀ s ∈ front, wellFormed s ∧ noLoss s :=
    fun s hs => hgood s (List.mem_append_left (L :: rest) hs)
  have hfrontpos : ∀ s ∈ front, 0 < netValue tax_rate s := fun s hs =>
    wellFormed_netValue_pos tax_rate s (hfrontgood s hs).1 (hfrontgood s hs).2 hr0 hr1
  have hfrontle : netTotal tax_rate front ≤ amountTotal front :=
    netTotal_le_amountTotal tax_rate front fun s hs =>
      wellFormed_netValue_le_amount tax_rate s (hfrontgood s hs).1 (hfrontgood s hs).2 hr0
  have hnvL : netValue tax_rate L = L.amount - L.cap_gains * tax_rate := rfl
  have hLle : netValue tax_rate L ≤ L.amount :=
    wellFormed_netValue_le_amount tax_rate L hLgood.1 hLgood.2 hr0
  have hrun := sellLoop_break_run sell_target tax_rate front L rest 0 0 hfrontpos
    (by simpa using hpre) (by simpa using hb)
  have hnetf := netTotal_eq tax_rate front
  refine ⟨?_, hLgood.1, hLgood.2, by linarith, by linarith⟩
  have hstop : ¬ (0 + amountTotal front + L.amount) < sell_target := by
    rw [not_lt]
    linarith
  simp only [minimumCapGains, hok, hrank, hrun]
  rw [if_neg hstop]

/-- Claim C3: when the running net-of-tax amount first strictly exceeds
the target upon adding record `L` of the ranking, the run returns the whole
records before `L` followed by one final entry: with
`n = ⌊(target - (a - c*r)) / x⌋ + 1` computed from the running totals `a`,
`c` excluding `L` and the per-share net proceeds `x` of `L`, the final
entry is a split of `n` shares (amount `price * n`, capital gain
`(price - basis) * n`) when `n` is below the whole-share count of `L`, and
`L` itself otherwise; nothing ranked after `L` is consumed. -/
theorem minimum_cap_gains_split_rule
    (records : List Record) (fund_prices : List (String × ℚ)) (sell_target tax_rate : ℚ)
    (front : List SellRecord) (L : SellRecord) (rest : List SellRecord) (n : ℚ)
    (h : ∀ rec ∈ records, 0 < rec.num_shares ∧ ∃ p, priceOf fund_prices rec.fund = some p ∧
      0 < p ∧ 0 ≤ rec.share_price ∧ rec.share_price ≤ p)
    (hr0 : 0 ≤ tax_rate) (hr1 : tax_rate < 1)
    (hrank : rankedRecords (records.map (mkSellRecord fund_prices)) = front ++ L :: rest)
    (hpre : netTotal tax_rate front ≤ sell_target)
    (hb : sell_target < netTotal tax_rate front + netValue tax_rate L)
    (hn : n = (⌊(sell_target - (amountTotal front - capGainsTotal front * tax_rate)) /
        ((L.amount - L.cap_gains * tax_rate) / L.num_shares)⌋ : ℚ) + 1) :
    minimumCapGains records fund_prices sell_target tax_rate =
      Except.ok (front ++
        [if n < (⌊L.num_shares⌋ : ℚ) then
          { L with
            num_shares := n
            amount := L.share_price * n
            cap_gains := (L.share_price - L.share_price_purchased) * n }
        else L]) := by
  obtain ⟨hres, hLw, hLn, hpreB, hbB⟩ := minimumCapGains_break_shape records fund_prices
    sell_target tax_rate front L rest h hr0 hr1 hrank hpre hb
  rw [hres, breakEntry_floor sell_target tax_rate _ _ L hLw.1 hpreB hbB]
  have e1 : (0:ℚ) + amountTotal front + L.amount - L.amount = amountTotal front := by ring
  have e2 : (0:ℚ) + capGainsTotal front + L.cap_gains - L.cap_gains = capGainsTotal front := by
    ring
  rw [e1, e2, ← hn]
  rfl

/-- Claim C7: when the overshoot record `L` is split, the emitted entry's
sale amount and capital gain are the fractions `n / S` of the whole lot's,
where `S` is the lot's share count — both derived figures are linear in the
share count. -/
theorem minimum_cap_gains_split_scaling
    (records : List Record) (fund_prices : List (String × ℚ)) (sell_target tax_rate : ℚ)
    (front : List SellRecord) (L : SellRecord) (rest : List SellRecord) (n : ℚ)
    (h : ∀ rec ∈ records, 0 < rec.num_shares ∧ ∃ p, priceOf fund_prices rec.fund = some p ∧
      0 < p ∧ 0 ≤ rec.share_price ∧ rec.share_price ≤ p)
    (hr0 : 0 ≤ tax_rate) (hr1 : tax_rate < 1)
    (hrank : rankedRecords (records.map (mkSellRecord fund_prices)) = front ++ L :: rest)
    (hpre : netTotal tax_rate front ≤ sell_target)
    (hb : sell_target < netTotal tax_rate front + netValue tax_rate L)
    (hn : n = (⌊(sell_target - (amountTotal front - capGainsTotal front * tax_rate)) /
        ((L.amount - L.cap_gains * tax_rate) / L.num_shares)⌋ : ℚ) + 1)
    (hsplit : n < (⌊L.num_shares⌋ : ℚ)) :
    minimumCapGains records fund_prices sell_target tax_rate =
      Except.ok (front ++ [splitRecord L n]) ∧
    (splitRecord L n).num_shares = n ∧ n < L.num_shares ∧
    (splitRecord L n).amount = n / L.num_shares * L.amount ∧
    (splitRecord L n).cap_gains = n / L.num_shares * L.cap_gains := by
  obtain ⟨hres, hLw, hLn, hpreB, hbB⟩ := minimumCapGains_break_shape records fund_prices
    sell_target tax_rate front L rest h hr0 hr1 hrank hpre hb
  obtain ⟨hsh, ha, hc⟩ := hLw
  have hnS : n < L.num_shares := by
    have hfl : ((⌊L.num_shares⌋ : ℤ) : ℚ) ≤ L.num_shares := Int.floor_le L.num_shares
    linarith
  refine ⟨?_, rfl, hnS, ?_, ?_⟩
  · rw [hres, breakEntry_floor sell_target tax_rate _ _ L hsh hpreB hbB]
    have e1 : (0:ℚ) + amountTotal front + L.amount - L.amount = amountTotal front := by ring
    have e2 : (0:ℚ) + capGainsTotal front + L.cap_gains - L.cap_gains =
        capGainsTotal front := by ring
    rw [e1, e2, ← hn, if_pos hsplit]
  · show L.share_price * n = n / L.num_shares * L.amount
    rw [ha]
    field_simp
    ring
  · show (L.share_price - L.share_price_purchased) * n = n / L.num_shares * L.cap_gains
    rw [hc]
    field_simp
    ring

/-- Claim C10: the entry emitted for a split lot keeps the lot's
`date_purchased`, `fund`, `share_price_purchased`, `share_price` and
`cap_gains_ratio` unchanged; only `num_shares`, `amount` and `cap_gains`
are replaced, with the share count strictly below the original. -/
theorem minimum_cap_gains_split_frame
    (records : List Record) (fund_prices : List (String × ℚ)) (sell_target tax_rate : ℚ)
    (front : List SellRecord) (L : SellRecord) (rest : List SellRecord) (n : ℚ)
    (h : ∀ rec ∈ records, 0 < rec.num_shares ∧ ∃ p, priceOf fund_prices rec.fund = some p ∧
      0 < p ∧ 0 ≤ rec.share_price ∧ rec.share_price ≤ p)
    (hr0 : 0 ≤ tax_rate) (hr1 : tax_rate < 1)
    (hrank : rankedRecords (records.map (mkSellRecord fund_prices)) = front ++ L :: rest)
    (hpre : netTotal tax_rate front ≤ sell_target)
    (hb : sell_target < netTotal tax_rate front + netValue tax_rate L)
    (hn : n = (⌊(sell_target - (amountTotal front - capGainsTotal front * tax_rate)) /
        ((L.amount - L.cap_gains * tax_rate) / L.num_shares)⌋ : ℚ) + 1)
    (hsplit : n < (⌊L.num_shares⌋ : ℚ)) :
    ∃ e, minimumCapGains records fund_prices sell_target tax_rate =
        Except.ok (front ++ [e]) ∧
      e.date_purchased = L.date_purchased ∧ e.fund = L.fund ∧
      e.share_price_purchased = L.share_price_purchased ∧
      e.share_price = L.share_price ∧ e.cap_gains_ratio = L.cap_gains_ratio ∧
      e.num_shares = n ∧ e.num_shares ≠ L.num_shares ∧
      e.amount = L.share_price * n ∧
      e.cap_gains = (L.share_price - L.share_price_purchased) * n := by
  obtain ⟨hres, hLw, hLn, hpreB, hbB⟩ := minimumCapGains_break_shape records fund_prices
    sell_target tax_rate front L rest h hr0 hr1 hrank hpre hb
  have hnS : n < L.num_shares := by
    have hfl : ((⌊L.num_shares⌋ : ℤ) : ℚ) ≤ L.num_shares := Int.floor_le L.num_shares
    linarith
  refine ⟨splitRecord L n, ?_, rfl, rfl, rfl, rfl, rfl, rfl, hnS.ne, rfl, rfl⟩
  rw [hres, breakEntry_floor sell_target tax_rate _ _ L hLw.1 hpreB hbB]
  have e1 : (0:ℚ) + amountTotal front + L.amount - L.amount = amountTotal front := by ring
  have e2 : (0:ℚ) + capGainsTotal front + L.cap_gains - L.cap_gains =
      capGainsTotal front := by ring
  rw [e1, e2, ← hn, if_pos hsplit]

/-! ## Counterexamples -/

/-- Claim C1 as frozen is false: a single loss lot (positive shares,
positive current price, cost basis above the price) whose net-of-tax value
exactly equals the positive target.  The loop's strict overshoot test never
fires, and the closing check compares the gross amount `1` — not the net
value `2` — against the target, so the run fails although the claimed
hypotheses hold. -/
theorem minimum_cap_gains_reaches_target_cex :
    netTotal (1/2) ([(⟨0, "F", "Buy", 1, 3, 3⟩ : Record)].map
      (mkSellRecord [("F", 1)])) = 2 ∧
    minimumCapGains [(⟨0, "F", "Buy", 1, 3, 3⟩ : Record)] [("F", 1)] 2 (1/2) =
      Except.error "Insufficient funds." := by
  constructor
  · norm_num [netTotal, netValue, mkSellRecord, priceOf, List.lookup]
  · norm_num [minimumCapGains, makeSellRecords, distinctFunds, firstMissingFund, priceOf,
      mkSellRecord, rankedRecords, List.insertionSort, List.orderedInsert, ratioLE,
      sellLoop, breakEntry, splitRecord, ratTrunc, List.lookup, List.find?]

/-- Claim C2 as frozen is false: one fully priced lot with a large taxed
gain.  The net-of-tax value of the whole lot set is `100 < 150`, yet the
closing check compares the gross amount `200` against the target, so the
run succeeds and returns a selection instead of the claimed
insufficient-funds error. -/
theorem minimum_cap_gains_insufficient_cex :
    netTotal (1/2) ([(⟨0, "F", "Buy", 100, 0, 0⟩ : Record)].map
      (mkSellRecord [("F", 2)])) < 150 ∧
    minimumCapGains [(⟨0, "F", "Buy", 100, 0, 0⟩ : Record)] [("F", 2)] 150 (1/2) =
      Except.ok [⟨0, "F", 100, 0, 2, 200, 200, 1⟩] := by
  constructor
  · norm_num [netTotal, netValue, mkSellRecord, priceOf, List.lookup]
  · norm_num [minimumCapGains, makeSellRecords, distinctFunds, firstMissingFund, priceOf,
      mkSellRecord, rankedRecords, List.insertionSort, List.orderedInsert, ratioLE,
      sellLoop, breakEntry, splitRecord, ratTrunc, List.lookup, List.find?]

/-- Claim C6 as frozen is false: with a negative target (which the claim
does not exclude) the overshoot fires on the first lot with a negative
remaining gap, `trunc` rounds it toward zero, and the emitted "split" sells
`-99` shares — violating `0 < num_shares` — although all shares and prices
are positive. -/
theorem minimum_cap_gains_entry_invariants_cex :
    (0:ℚ) < 5 ∧ priceOf [("F", 1)] "F" = some 1 ∧ (0:ℚ) < 1 ∧
    minimumCapGains [(⟨0, "F", "Buy", 5, 0, 0⟩ : Record)] [("F", 1)] (-100) 0 =
      Except.ok [⟨0, "F", -99, 0, 1, -99, -99, 1⟩] ∧
    ¬ (0:ℚ) < (-99 : ℚ) := by
  refine ⟨by norm_num, rfl, by norm_num, ?_, by norm_num⟩
  have hc : (⌈(-100 : ℚ)⌉ : ℤ) = -100 := by
    rw [show (-100 : ℚ) = ((-100 : ℤ) : ℚ) by norm_num, Int.ceil_intCast]
  norm_num [minimumCapGains, makeSellRecords, distinctFunds, firstMissingFund, priceOf,
    mkSellRecord, rankedRecords, List.insertionSort, List.orderedInsert, ratioLE,
    sellLoop, breakEntry, splitRecord, ratTrunc, List.lookup, List.find?, hc]

/-! ## A worked run (the two-lot example of the specification) -/

theorem spec_example_hyp :
    ∀ rec ∈ [(⟨0, "F", "Buy", 10, 50, 500⟩ : Record), ⟨1, "F", "Buy", 5, 80, 400⟩],
      0 < rec.num_shares ∧ ∃ p, priceOf [("F", 100)] rec.fund = some p ∧
        0 < p ∧ 0 ≤ rec.share_price ∧ rec.share_price ≤ p := by
  intro rec hrec
  rcases List.mem_cons.mp hrec with rfl | hrec
  · exact ⟨by norm_num, 100, rfl, by norm_num, by norm_num, by norm_num⟩
  rcases List.mem_cons.mp hrec with rfl | hrec
  · exact ⟨by norm_num, 100, rfl, by norm_num, by norm_num, by norm_num⟩
  · cases hrec

theorem spec_example_rank :
    rankedRecords ([(⟨0, "F", "Buy", 10, 50, 500⟩ : Record),
        ⟨1, "F", "Buy", 5, 80, 400⟩].map (mkSellRecord [("F", 100)])) =
      [(⟨1, "F", 5, 80, 100, 500, 100, 1/5⟩ : SellRecord)] ++
        (⟨0, "F", 10, 50, 100, 1000, 500, 1/2⟩ : SellRecord) :: [] := by
  norm_num [rankedRecords, List.insertionSort, List.orderedInsert, ratioLE,
    mkSellRecord, priceOf, List.lookup]

theorem spec_example_eval :
    minimumCapGains [(⟨0, "F", "Buy", 10, 50, 500⟩ : Record),
        ⟨1, "F", "Buy", 5, 80, 400⟩] [("F", 100)] 600 0 =
      Except.ok [⟨1, "F", 5, 80, 100, 500, 100, 1/5⟩,
        ⟨0, "F", 2, 50, 100, 200, 100, 1/2⟩] := by
  norm_num [minimumCapGains, makeSellRecords, distinctFunds, firstMissingFund, priceOf,
    mkSellRecord, rankedRecords, List.insertionSort, List.orderedInsert, ratioLE,
    sellLoop, breakEntry, splitRecord, ratTrunc, List.lookup, List.find?]

/-! ## Witnesses -/

/-- Witness for the amended claim C1 at the specification's two-lot
example. -/
theorem minimum_cap_gains_reaches_target_witness :
    (0:ℚ) < 600 ∧
    ∃ l, minimumCapGains [(⟨0, "F", "Buy", 10, 50, 500⟩ : Record),
        ⟨1, "F", "Buy", 5, 80, 400⟩] [("F", 100)] 600 0 = Except.ok l ∧
      600 ≤ amountTotal l - 0 * capGainsTotal l :=
  ⟨by norm_num,
    minimum_cap_gains_reaches_target _ _ 600 0 spec_example_hyp (by norm_num) (by norm_num)
      (by norm_num)
      (by norm_num [netTotal, netValue, mkSellRecord, priceOf, List.lookup])⟩

/-- Witness for the amended claim C2: a single one-share lot grossing `1`
against target `5`. -/
theorem minimum_cap_gains_insufficient_witness :
    amountTotal ([(⟨0, "F", "Buy", 1, 1, 1⟩ : Record)].map (mkSellRecord [("F", 1)])) < 5 ∧
    minimumCapGains [(⟨0, "F", "Buy", 1, 1, 1⟩ : Record)] [("F", 1)] 5 0 =
      Except.error "Insufficient funds." := by
  constructor
  · norm_num [amountTotal, mkSellRecord, priceOf, List.lookup]
  · exact minimum_cap_gains_insufficient _ _ 5 0
      (by
        intro rec hrec
        rcases List.mem_cons.mp hrec with rfl | hrec
        · exact ⟨by norm_num, 1, rfl, by norm_num⟩
        · cases hrec)
      (by norm_num [amountTotal, mkSellRecord, priceOf, List.lookup])

/-- Witness for claim C3 at the specification's two-lot example: the run
splits the ten-share lot into a two-share sale. -/
theorem minimum_cap_gains_split_rule_witness :
    netTotal 0 [(⟨1, "F", 5, 80, 100, 500, 100, 1/5⟩ : SellRecord)] ≤ 600 ∧
    minimumCapGains [(⟨0, "F", "Buy", 10, 50, 500⟩ : Record), ⟨1, "F", "Buy", 5, 80, 400⟩]
        [("F", 100)] 600 0 =
      Except.ok [⟨1, "F", 5, 80, 100, 500, 100, 1/5⟩,
        ⟨0, "F", 2, 50, 100, 200, 100, 1/2⟩] := by
  have hpre : netTotal 0 [(⟨1, "F", 5, 80, 100, 500, 100, 1/5⟩ : SellRecord)] ≤ 600 := by
    norm_num [netTotal, netValue]
  refine ⟨hpre, ?_⟩
  have hthm := minimum_cap_gains_split_rule
    [(⟨0, "F", "Buy", 10, 50, 500⟩ : Record), ⟨1, "F", "Buy", 5, 80, 400⟩]
    [("F", 100)] 600 0
    [(⟨1, "F", 5, 80, 100, 500, 100, 1/5⟩ : SellRecord)]
    (⟨0, "F", 10, 50, 100, 1000, 500, 1/2⟩ : SellRecord) [] 2
    spec_example_hyp (by norm_num) (by norm_num) spec_example_rank hpre
    (by norm_num [netTotal, netValue])
    (by norm_num [amountTotal, capGainsTotal])
  rw [hthm]
  norm_num

/-- Witness for claim C4: one lot on an unpriced fund. -/
theorem minimum_cap_gains_missing_price_witness :
    priceOf [] "G" = none ∧
    ∃ fund, minimumCapGains [(⟨0, "G", "Buy", 1, 1, 1⟩ : Record)] [] 7 0 =
        Except.error ("Missing price for fund: " ++ fund) ∧
      priceOf [] fund = none ∧
      ∃ rec ∈ [(⟨0, "G", "Buy", 1, 1, 1⟩ : Record)], rec.fund = fund :=
  ⟨rfl, minimum_cap_gains_missing_price _ _ 7 0
    ⟨⟨0, "G", "Buy", 1, 1, 1⟩, List.mem_singleton_self _, rfl⟩⟩

/-- Witness for the amended claim C6 at the split entry of the
specification's two-lot example. -/
theorem minimum_cap_gains_entry_invariants_witness :
    ∃ rec ∈ [(⟨0, "F", "Buy", 10, 50, 500⟩ : Record), ⟨1, "F", "Buy", 5, 80, 400⟩],
      ∃ p, priceOf [("F", 100)] rec.fund = some p ∧
        (⟨0, "F", 2, 50, 100, 200, 100, 1/2⟩ : SellRecord).fund = rec.fund ∧
        (⟨0, "F", 2, 50, 100, 200, 100, 1/2⟩ : SellRecord).date_purchased = rec.date ∧
        (⟨0, "F", 2, 50, 100, 200, 100, 1/2⟩ : SellRecord).share_price_purchased =
          rec.share_price ∧
        0 < (⟨0, "F", 2, 50, 100, 200, 100, 1/2⟩ : SellRecord).num_shares ∧
        (⟨0, "F", 2, 50, 100, 200, 100, 1/2⟩ : SellRecord).num_shares ≤ rec.num_shares ∧
        (⟨0, "F", 2, 50, 100, 200, 100, 1/2⟩ : SellRecord).amount =
          p * (⟨0, "F", 2, 50, 100, 200, 100, 1/2⟩ : SellRecord).num_shares ∧
        (⟨0, "F", 2, 50, 100, 200, 100, 1/2⟩ : SellRecord).cap_gains =
          (p - rec.share_price) *
            (⟨0, "F", 2, 50, 100, 200, 100, 1/2⟩ : SellRecord).num_shares := by
  have hyp6 : ∀ rec ∈ [(⟨0, "F", "Buy", 10, 50, 500⟩ : Record),
      ⟨1, "F", "Buy", 5, 80, 400⟩],
      0 < rec.num_shares ∧ ∃ p, priceOf [("F", 100)] rec.fund = some p ∧ 0 < p := by
    intro rec hrec
    obtain ⟨h1, p, hp, hp0, _, _⟩ := spec_example_hyp rec hrec
    exact ⟨h1, p, hp, hp0⟩
  exact minimum_cap_gains_entry_invariants _ _ 600 0 _ hyp6 (by norm_num) spec_example_eval
    (⟨0, "F", 2, 50, 100, 200, 100, 1/2⟩ : SellRecord)
    (List.mem_cons_of_mem _ (List.mem_singleton_self _))

/-- Witness for claim C7 at the specification's two-lot example:
the two-share split carries `2/10` of the whole lot's figures. -/
theorem minimum_cap_gains_split_scaling_witness :
    minimumCapGains [(⟨0, "F", "Buy", 10, 50, 500⟩ : Record), ⟨1, "F", "Buy", 5, 80, 400⟩]
        [("F", 100)] 600 0 =
      Except.ok ([(⟨1, "F", 5, 80, 100, 500, 100, 1/5⟩ : SellRecord)] ++
        [splitRecord (⟨0, "F", 10, 50, 100, 1000, 500, 1/2⟩ : SellRecord) 2]) ∧
    (splitRecord (⟨0, "F", 10, 50, 100, 1000, 500, 1/2⟩ : SellRecord) 2).amount =
      2 / 10 * 1000 ∧
    (splitRecord (⟨0, "F", 10, 50, 100, 1000, 500, 1/2⟩ : SellRecord) 2).cap_gains =
      2 / 10 * 500 := by
  have H := minimum_cap_gains_split_scaling
    [(⟨0, "F", "Buy", 10, 50, 500⟩ : Record), ⟨1, "F", "Buy", 5, 80, 400⟩]
    [("F", 100)] 600 0
    [(⟨1, "F", 5, 80, 100, 500, 100, 1/5⟩ : SellRecord)]
    (⟨0, "F", 10, 50, 100, 1000, 500, 1/2⟩ : SellRecord) [] 2
    spec_example_hyp (by norm_num) (by norm_num) spec_example_rank
    (by norm_num [netTotal, netValue])
    (by norm_num [netTotal, netValue])
    (by norm_num [amountTotal, capGainsTotal])
    (by norm_num)
  exact ⟨H.1, H.2.2.2.1, H.2.2.2.2⟩

/-- Witness for claim C8 at the specification's two-lot example. -/
theorem minimum_cap_gains_ranked_output_witness :
    minimumCapGains [(⟨0, "F", "Buy", 10, 50, 500⟩ : Record), ⟨1, "F", "Buy", 5, 80, 400⟩]
        [("F", 100)] 600 0 =
      Except.ok [⟨1, "F", 5, 80, 100, 500, 100, 1/5⟩,
        ⟨0, "F", 2, 50, 100, 200, 100, 1/2⟩] ∧
    List.Sorted (· ≤ ·)
      ([(⟨1, "F", 5, 80, 100, 500, 100, 1/5⟩ : SellRecord),
        ⟨0, "F", 2, 50, 100, 200, 100, 1/2⟩].dropLast.map SellRecord.cap_gains_ratio) :=
  ⟨spec_example_eval,
    minimum_cap_gains_ranked_output _ _ 600 0 _ spec_example_eval⟩

/-- Witness for claim C9: a two-share lot bought at `1`, now priced `3`. -/
theorem make_sell_records_ratios_defined_witness :
    (0:ℚ) < (⟨0, "F", 2, 1, 3, 6, 4, 2/3⟩ : SellRecord).amount ∧
    (⟨0, "F", 2, 1, 3, 6, 4, 2/3⟩ : SellRecord).amount ≠ 0 ∧
    (⟨0, "F", 2, 1, 3, 6, 4, 2/3⟩ : SellRecord).cap_gains_ratio *
      (⟨0, "F", 2, 1, 3, 6, 4, 2/3⟩ : SellRecord).amount =
      (⟨0, "F", 2, 1, 3, 6, 4, 2/3⟩ : SellRecord).cap_gains := by
  refine make_sell_records_ratios_defined [(⟨0, "F", "Buy", 2, 1, 2⟩ : Record)] [("F", 3)]
    ?_ _ ?_
  · intro rec hrec
    rcases List.mem_cons.mp hrec with rfl | hrec
    · exact ⟨by norm_num, 3, rfl, by norm_num⟩
    · cases hrec
  · norm_num [mkSellRecord, priceOf, List.lookup]

/-- Witness for claim C10 at the specification's two-lot example: the
split entry copies all fields of the ten-share lot except the three
recomputed ones. -/
theorem minimum_cap_gains_split_frame_witness :
    ∃ e, minimumCapGains [(⟨0, "F", "Buy", 10, 50, 500⟩ : Record),
        ⟨1, "F", "Buy", 5, 80, 400⟩] [("F", 100)] 600 0 =
      Except.ok ([(⟨1, "F", 5, 80, 100, 500, 100, 1/5⟩ : SellRecord)] ++ [e]) ∧
      e.date_purchased = 0 ∧ e.fund = "F" ∧ e.share_price_purchased = 50 ∧
      e.share_price = 100 ∧ e.cap_gains_ratio = 1/2 ∧
      e.num_shares = 2 ∧ e.num_shares ≠ 10 ∧
      e.amount = 100 * 2 ∧ e.cap_gains = (100 - 50) * 2 :=
  minimum_cap_gains_split_frame
    [(⟨0, "F", "Buy", 10, 50, 500⟩ : Record), ⟨1, "F", "Buy", 5, 80, 400⟩]
    [("F", 100)] 600 0
    [(⟨1, "F", 5, 80, 100, 500, 100, 1/5⟩ : SellRecord)]
    (⟨0, "F", 10, 50, 100, 1000, 500, 1/2⟩ : SellRecord) [] 2
    spec_example_hyp (by norm_num) (by norm_num) spec_example_rank
    (by norm_num [netTotal, netValue])
    (by norm_num [netTotal, netValue])
    (by norm_num [amountTotal, capGainsTotal])
    (by norm_num)
